import Mathlib

/-!
# Verification of the 3d-text-plugin-server pixel-to-geometry pipeline

Shallow embedding of the reconstruction pipeline of the repository
`3d-text-plugin-server` (Express servers turning a rasterized glyph into
run-length bars, greedy-meshed rectangles, or traced/simplified/triangulated
contours), together with proofs and refutations of the frozen specification
claims.

Conventions used throughout:

* JavaScript numbers holding pixel coordinates and loop counters are small
  integers; they are modelled as `Nat` (with `Int` where a neighbour offset
  can be negative).
* Geometry arithmetic (`(r+g+b)/3`, shoelace areas, ray-casting slopes,
  perpendicular distances) is carried out by JavaScript in binary floating
  point; it is modelled exactly over `ℚ`.  The one place the code takes a
  square root (`Math.sqrt` in the Ramer–Douglas–Peucker distance) is only
  ever used in `>` comparisons between non-negative quantities, so the
  embedding compares the squares instead, which is equivalent because
  squaring is strictly monotone on non-negatives.
* Mutable arrays (`Uint8Array` grids, visited flags, keep flags) are
  modelled as total functions updated pointwise.
* The `do … while` boundary walk of `traceBoundary` need not terminate, so
  its embedding takes explicit fuel and returns `Option`; `none` means the
  fuel was exhausted.
-/

/-- A rectangle/bar `{x, y, width, height}` as produced by both the run
extractor and the greedy mesher (`bars.push({x, y, width, height})`). -/
structure Run where
  x : Nat
  y : Nat
  width : Nat
  height : Nat
deriving DecidableEq, Repr

/-! ## Transport-layer parameter handling (server.js, both endpoints)

`parseInt(req.query.threshold)` either yields an integer or `NaN`; the
result is modelled as `Option Int` with `none` for `NaN` (also covering an
absent parameter).  JavaScript `v || d` yields `d` exactly when `v` is `0`
or `NaN`.  `Math.min(Math.max(v, lo), hi)` clamps. -/

/-- Embeds `Math.min(Math.max(parseInt(req.query.resolution) || 128, 32), 512)`. -/
def parseResolution (v : Option Int) : Int :=
  let r : Int := match v with
    | none => 128
    | some n => if n = 0 then 128 else n
  min (max r 32) 512

/-- Embeds `Math.min(Math.max(parseInt(req.query.threshold) || 120, 0), 255)`. -/
def parseThreshold (v : Option Int) : Int :=
  let t : Int := match v with
    | none => 120
    | some n => if n = 0 then 120 else n
  min (max t 0) 255

/-! ## Binarizer

`const brightness = (r + g + b) / 3; const isOn = brightness < threshold;`
(server.js `/generate`), with one variant additionally requiring
`a > 0` (part_000 GET endpoint).  RGBA samples are bytes, modelled as `Nat`
and cast into `ℚ` for the exact mean. -/

/-- Mean-of-RGB luminance `(r + g + b) / 3` over `ℚ`. -/
def brightness (r g b : Nat) : ℚ := ((r : ℚ) + g + b) / 3

/-- Rule `isOn = brightness < threshold` (server.js binarization rule). -/
def isInk (r g b : Nat) (threshold : ℚ) : Bool :=
  decide (brightness r g b < threshold)

/-- Rule `isOn = a > 0 && brightness < threshold` (part_000 GET variant rule). -/
def isInkAlpha (r g b a : Nat) (threshold : ℚ) : Bool :=
  decide (0 < a) && decide (brightness r g b < threshold)

/-! ## Run extractor (server.js `/generate` scanline loop)

For each row, `runStart` is `-1` (here `none`) outside a run and the start
column inside one; a run closes on the first background pixel
(`width = runEnd - runStart + 1` with `runEnd = x - 1`) or at the row end
(`runEnd = canvasSize - 1`). -/

/-- One row of the scanline loop of `app.get('/generate')`, scanning
columns `x, x+1, …, size-1` with the current `runStart`. -/
def rowRunsAux (isOn : Nat → Bool) (size y : Nat) (x : Nat)
    (runStart : Option Nat) : List Run :=
  if _h : x < size then
    match runStart, isOn x with
    | none, true => rowRunsAux isOn size y (x + 1) (some x)
    | none, false => rowRunsAux isOn size y (x + 1) none
    | some s, true => rowRunsAux isOn size y (x + 1) (some s)
    | some s, false =>
        ⟨s, y, (x - 1) - s + 1, 1⟩ :: rowRunsAux isOn size y (x + 1) none
  else
    match runStart with
    | some s => [⟨s, y, (size - 1) - s + 1, 1⟩]
    | none => []
termination_by size - x

/-- All runs emitted for one row. -/
def rowRuns (isOn : Nat → Bool) (size y : Nat) : List Run :=
  rowRunsAux isOn size y 0 none

/-- The whole run extraction over an ink grid `ink y x`. -/
def runExtract (ink : Nat → Nat → Bool) (size : Nat) : List Run :=
  (List.range size).flatMap fun y => rowRuns (ink y) size y

/-! ### Specification predicates for the run extractor

`MaximalRun` is the property the spec ascribes to each emitted `Run`: height
one, all covered pixels ink, and no extension possible on either side. -/

/-- The property claimed for each emitted run: it lies in row `y` with
height 1, covers only ink pixels, stays inside the row, and is maximal
(the pixel left of it and the pixel right of it, when they exist, are
background). -/
def MaximalRun (isOn : Nat → Bool) (size y : Nat) (r : Run) : Prop :=
  r.height = 1 ∧ r.y = y ∧ 1 ≤ r.width ∧ r.x + r.width ≤ size ∧
  (∀ t, r.x ≤ t → t < r.x + r.width → isOn t = true) ∧
  (r.x = 0 ∨ isOn (r.x - 1) = false) ∧
  (r.x + r.width = size ∨ isOn (r.x + r.width) = false)

/-- Reachable-state invariant of the scanline loop: outside a run the
previous pixel (if any) was background; inside a run started at `s`, all of
`[s, x)` is ink and the pixel left of `s` (if any) is background. -/
def ScanInv (isOn : Nat → Bool) (size x : Nat) : Option Nat → Prop
  | none => x = 0 ∨ isOn (x - 1) = false
  | some s => s < x ∧ s < size ∧ (∀ t, s ≤ t → t < x → isOn t = true) ∧
      (s = 0 ∨ isOn (s - 1) = false)

theorem rowRunsAux_sound (isOn : Nat → Bool) (size y : Nat) :
    ∀ x rs, ScanInv isOn size x rs →
      ∀ r ∈ rowRunsAux isOn size y x rs, MaximalRun isOn size y r := by
  intro x₀ rs₀
  induction x₀, rs₀ using rowRunsAux.induct isOn size y with
  | case1 x h hon ih =>
      intro hinv r hr
      rw [rowRunsAux.eq_def] at hr
      simp only [dif_pos h, hon] at hr
      exact ih ⟨by omega, h, by intro t ht1 ht2; have : t = x := by omega
                                subst this; exact hon,
                by simpa [ScanInv] using hinv⟩ r hr
  | case2 x h hoff ih =>
      intro _ r hr
      rw [rowRunsAux.eq_def] at hr
      simp only [dif_pos h, hoff] at hr
      exact ih (Or.inr (by simpa using hoff)) r hr
  | case3 x h s hon ih =>
      intro hinv r hr
      rw [rowRunsAux.eq_def] at hr
      simp only [dif_pos h, hon] at hr
      obtain ⟨h1, h2, h3, h4⟩ := hinv
      refine ih ⟨by omega, h2, ?_, h4⟩ r hr
      intro t ht1 ht2
      rcases Nat.lt_or_ge t x with h' | h'
      · exact h3 t ht1 h'
      · have : t = x := by omega
        subst this; exact hon
  | case4 x h s hoff ih =>
      intro hinv r hr
      rw [rowRunsAux.eq_def] at hr
      simp only [dif_pos h, hoff] at hr
      obtain ⟨h1, h2, h3, h4⟩ := hinv
      rcases List.mem_cons.mp hr with rfl | hr
      · refine ⟨rfl, rfl, by simp, by simp; omega, ?_, by simpa using h4, ?_⟩
        · intro t ht1 ht2
          simp only at ht1 ht2 ⊢
          exact h3 t ht1 (by omega)
        · right
          simpa [show s + ((x - 1) - s + 1) = x by omega] using hoff
      · exact ih (Or.inr (by simpa using hoff)) r hr
  | case5 x h s =>
      intro hinv r hr
      rw [rowRunsAux.eq_def] at hr
      simp only [dif_neg h] at hr
      obtain ⟨h1, h2, h3, h4⟩ := hinv
      rcases List.mem_singleton.mp hr with rfl
      refine ⟨rfl, rfl, by simp, by simp; omega, ?_, by simpa using h4, ?_⟩
      · intro t ht1 ht2
        simp only at ht1 ht2 ⊢
        exact h3 t ht1 (by omega)
      · left
        simp only
        omega
  | case6 x h =>
      intro _ r hr
      rw [rowRunsAux.eq_def] at hr
      simp only [dif_neg h] at hr
      simp at hr

theorem rowRunsAux_cover (isOn : Nat → Bool) (size y : Nat) :
    ∀ x rs, ScanInv isOn size x rs →
      ∀ t, t < size → isOn t = true →
        (match rs with | none => x ≤ t | some s => s ≤ t) →
        ∃ r ∈ rowRunsAux isOn size y x rs, r.x ≤ t ∧ t < r.x + r.width := by
  intro x₀ rs₀
  induction x₀, rs₀ using rowRunsAux.induct isOn size y with
  | case1 x h hon ih =>
      intro hinv t ht hton hloc
      rw [rowRunsAux.eq_def]
      simp only [dif_pos h, hon]
      refine ih ⟨by omega, h, ?_, by simpa [ScanInv] using hinv⟩ t ht hton (by simp at hloc ⊢; omega)
      intro u hu1 hu2
      have : u = x := by omega
      subst this; exact hon
  | case2 x h hoff ih =>
      intro _ t ht hton hloc
      rw [rowRunsAux.eq_def]
      simp only [dif_pos h, hoff]
      have hne : t ≠ x := by
        intro hE; rw [← hE, hton] at hoff; simp at hoff
      refine ih (Or.inr (by simpa using hoff)) t ht hton ?_
      simp at hloc ⊢
      omega
  | case3 x h s hon ih =>
      intro hinv t ht hton hloc
      rw [rowRunsAux.eq_def]
      simp only [dif_pos h, hon]
      obtain ⟨h1, h2, h3, h4⟩ := hinv
      refine ih ⟨by omega, h2, ?_, h4⟩ t ht hton (by simp at hloc ⊢; omega)
      intro u hu1 hu2
      rcases Nat.lt_or_ge u x with h' | h'
      · exact h3 u hu1 h'
      · have : u = x := by omega
        subst this; exact hon
  | case4 x h s hoff ih =>
      intro hinv t ht hton hloc
      rw [rowRunsAux.eq_def]
      simp only [dif_pos h, hoff]
      obtain ⟨h1, h2, h3, h4⟩ := hinv
      simp only at hloc
      rcases Nat.lt_or_ge t x with h' | h'
      · exact ⟨⟨s, y, (x - 1) - s + 1, 1⟩, List.mem_cons_self _ _, by simp; omega, by simp; omega⟩
      · have hne : t ≠ x := by
          intro hE; rw [← hE, hton] at hoff; simp at hoff
        obtain ⟨r, hr, hcov⟩ :=
          ih (Or.inr (by simpa using hoff)) t ht hton (by simp; omega)
        exact ⟨r, List.mem_cons_of_mem _ hr, hcov⟩
  | case5 x h s =>
      intro hinv t ht hton hloc
      rw [rowRunsAux.eq_def]
      simp only [dif_neg h]
      obtain ⟨h1, h2, h3, h4⟩ := hinv
      simp only at hloc
      exact ⟨⟨s, y, (size - 1) - s + 1, 1⟩, List.mem_singleton_self _, by simp; omega,
        by simp; omega⟩
  | case6 x h =>
      intro _ t ht hton hloc
      simp only at hloc
      omega

theorem rowRunsAux_lb (isOn : Nat → Bool) (size y : Nat) :
    ∀ x rs, ∀ r ∈ rowRunsAux isOn size y x rs,
      (match rs with | none => x | some s => min s x) ≤ r.x := by
  intro x₀ rs₀
  induction x₀, rs₀ using rowRunsAux.induct isOn size y with
  | case1 x h hon ih =>
      intro r hr
      rw [rowRunsAux.eq_def] at hr
      simp only [dif_pos h, hon] at hr
      have := ih r hr
      simp only at this ⊢
      omega
  | case2 x h hoff ih =>
      intro r hr
      rw [rowRunsAux.eq_def] at hr
      simp only [dif_pos h, hoff] at hr
      have := ih r hr
      simp only at this ⊢
      omega
  | case3 x h s hon ih =>
      intro r hr
      rw [rowRunsAux.eq_def] at hr
      simp only [dif_pos h, hon] at hr
      have := ih r hr
      simp only at this ⊢
      omega
  | case4 x h s hoff ih =>
      intro r hr
      rw [rowRunsAux.eq_def] at hr
      simp only [dif_pos h, hoff] at hr
      rcases List.mem_cons.mp hr with rfl | hr
      · simp
      · have := ih r hr
        simp only at this ⊢
        omega
  | case5 x h s =>
      intro r hr
      rw [rowRunsAux.eq_def] at hr
      simp only [dif_neg h] at hr
      rcases List.mem_singleton.mp hr with rfl
      simp
  | case6 x h =>
      intro r hr
      rw [rowRunsAux.eq_def] at hr
      simp only [dif_neg h] at hr
      simp at hr

theorem rowRunsAux_pairwise (isOn : Nat → Bool) (size y : Nat) :
    ∀ x rs, ScanInv isOn size x rs →
      (rowRunsAux isOn size y x rs).Pairwise
        (fun r₁ r₂ => r₁.x + r₁.width < r₂.x) := by
  intro x₀ rs₀
  induction x₀, rs₀ using rowRunsAux.induct isOn size y with
  | case1 x h hon ih =>
      intro hinv
      rw [rowRunsAux.eq_def]
      simp only [dif_pos h, hon]
      refine ih ⟨by omega, h, ?_, by simpa [ScanInv] using hinv⟩
      intro u hu1 hu2
      have : u = x := by omega
      subst this; exact hon
  | case2 x h hoff ih =>
      intro _
      rw [rowRunsAux.eq_def]
      simp only [dif_pos h, hoff]
      exact ih (Or.inr (by simpa using hoff))
  | case3 x h s hon ih =>
      intro hinv
      rw [rowRunsAux.eq_def]
      simp only [dif_pos h, hon]
      obtain ⟨h1, h2, h3, h4⟩ := hinv
      refine ih ⟨by omega, h2, ?_, h4⟩
      intro u hu1 hu2
      rcases Nat.lt_or_ge u x with h' | h'
      · exact h3 u hu1 h'
      · have : u = x := by omega
        subst this; exact hon
  | case4 x h s hoff ih =>
      intro hinv
      rw [rowRunsAux.eq_def]
      simp only [dif_pos h, hoff]
      obtain ⟨h1, h2, h3, h4⟩ := hinv
      refine List.Pairwise.cons ?_ (ih (Or.inr (by simpa using hoff)))
      intro r hr
      have := rowRunsAux_lb isOn size y (x + 1) none r hr
      simp only at this ⊢
      omega
  | case5 x h s =>
      intro _
      rw [rowRunsAux.eq_def]
      simp only [dif_neg h]
      simp
  | case6 x h =>
      intro _
      rw [rowRunsAux.eq_def]
      simp only [dif_neg h]
      simp

/-- Claim C2: the scanline run extractor emits, per row, exactly the
maximal horizontal ink spans — every emitted run has height 1 and covers
only ink, cannot be extended on either side, every ink pixel is covered by
a run of its row, and the runs of one row are pairwise disjoint with a
strict gap (hence no two adjacent runs could merge). -/
theorem runExtractor_maximal_runs (ink : Nat → Nat → Bool) (size : Nat) :
    (∀ r ∈ runExtract ink size, r.height = 1 ∧ r.y < size ∧
        MaximalRun (ink r.y) size r.y r) ∧
    (∀ y t, y < size → t < size → ink y t = true →
        ∃ r ∈ runExtract ink size, r.y = y ∧ r.x ≤ t ∧ t < r.x + r.width) ∧
    (∀ y, (rowRuns (ink y) size y).Pairwise
        (fun r₁ r₂ => r₁.x + r₁.width < r₂.x)) := by
  refine ⟨?_, ?_, ?_⟩
  · intro r hr
    rw [runExtract, List.mem_flatMap] at hr
    obtain ⟨y, hy, hr⟩ := hr
    have hmax := rowRunsAux_sound (ink y) size y 0 none (Or.inl rfl) r hr
    obtain ⟨hh, hy', _⟩ := hmax
    refine ⟨hh, ?_, ?_⟩
    · rw [hy']; exact List.mem_range.mp hy
    · rw [hy']
      exact rowRunsAux_sound (ink y) size y 0 none (Or.inl rfl) r hr
  · intro y t hy ht hton
    obtain ⟨r, hr, hcov⟩ :=
      rowRunsAux_cover (ink y) size y 0 none (Or.inl rfl) t ht hton (by simp)
    have hmax := rowRunsAux_sound (ink y) size y 0 none (Or.inl rfl) r hr
    refine ⟨r, ?_, hmax.2.1, hcov⟩
    rw [runExtract, List.mem_flatMap]
    exact ⟨y, List.mem_range.mpr hy, hr⟩
  · intro y
    exact rowRunsAux_pairwise (ink y) size y 0 none (Or.inl rfl)

/-- Witness for `runExtractor_maximal_runs`: one row `[ink, ink, bg]` of a
3×3 grid; the cover part instantiated at pixel `(0, 1)` produces a run
containing it. -/
theorem runExtractor_maximal_runs_witness :
    ∃ r ∈ runExtract (fun y x => y == 0 && decide (x ≤ 1)) 3,
      r.y = 0 ∧ r.x ≤ 1 ∧ 1 < r.x + r.width :=
  (runExtractor_maximal_runs (fun y x => y == 0 && decide (x ≤ 1)) 3).2.1
    0 1 (by decide) (by decide) (by decide)

/-! ## Greedy mesher (part_001 `generateTextBars`, step 2)

The mesher scans the mutable grid in raster order; at an ink cell it grows
the width rightwards (`while (x + width < canvasSize && grid[y][x + width])`),
then the height downwards while the whole `width`-wide strip stays ink,
emits the rectangle and clears it from the grid. -/

/-- Length of the consecutive ink run of row `y` starting at column `x`:
the final value of `width` in step A of the greedy mesher. -/
def runLen (g : Nat → Nat → Bool) (size y x : Nat) : Nat :=
  if _h : x < size then
    if g y x then runLen g size y (x + 1) + 1 else 0
  else 0
termination_by size - x

/-- Checks `grid[y + height][x + k]` ink for every `k < width` (the inner
`nextRowMatch` check of step B). -/
def stripAll (g : Nat → Nat → Bool) (row x width : Nat) : Bool :=
  (List.range width).all fun k => g row (x + k)

/-- Number of additional full-strip rows below the start row: the loop of
step B increments `height` while the next row matches. -/
def heightLen (g : Nat → Nat → Bool) (size x width row : Nat) : Nat :=
  if _h : row < size then
    if stripAll g row x width then heightLen g size x width (row + 1) + 1 else 0
  else 0
termination_by size - row

/-- Membership of cell `(yy, xx)` (row, column) in rectangle `r`. -/
def inRect (r : Run) (yy xx : Nat) : Prop :=
  r.y ≤ yy ∧ yy < r.y + r.height ∧ r.x ≤ xx ∧ xx < r.x + r.width

instance (r : Run) (yy xx : Nat) : Decidable (inRect r yy xx) := by
  unfold inRect; infer_instance

/-- Step D: clear every cell of the emitted rectangle from the grid. -/
def clearRect (g : Nat → Nat → Bool) (r : Run) : Nat → Nat → Bool :=
  fun yy xx => if inRect r yy xx then false else g yy xx

/-- The rectangle emitted when the scan hits ink at raster index `i`
(`x = i % size`, `y = i / size`): width from step A, height from step B. -/
def rectAt (g : Nat → Nat → Bool) (size i : Nat) : Run :=
  ⟨i % size, i / size, runLen g size (i / size) (i % size),
    1 + heightLen g size (i % size) (runLen g size (i / size) (i % size))
        (i / size + 1)⟩

/-- The scan of the greedy mesher from raster index `i` on, on the current
(partially cleared) grid. -/
def meshFrom (size : Nat) (g : Nat → Nat → Bool) (i : Nat) : List Run :=
  if _h : i < size * size then
    if g (i / size) (i % size) = true then
      rectAt g size i :: meshFrom size (clearRect g (rectAt g size i)) (i + 1)
    else meshFrom size g (i + 1)
  else []
termination_by size * size - i

/-- The full greedy meshing of a `size × size` ink grid. -/
def greedyMesh (size : Nat) (g : Nat → Nat → Bool) : List Run :=
  meshFrom size g 0

theorem runLen_le (g : Nat → Nat → Bool) (size y : Nat) :
    ∀ x, runLen g size y x ≤ size - x := by
  intro x₀
  induction x₀ using runLen.induct g size y with
  | case1 x h hg ih =>
      rw [runLen, dif_pos h, if_pos hg]
      omega
  | case2 x h hg =>
      rw [runLen, dif_pos h, if_neg hg]
      omega
  | case3 x h =>
      rw [runLen, dif_neg h]
      omega

theorem runLen_ink (g : Nat → Nat → Bool) (size y : Nat) :
    ∀ x, ∀ k < runLen g size y x, g y (x + k) = true := by
  intro x₀
  induction x₀ using runLen.induct g size y with
  | case1 x h hg ih =>
      intro k hk
      rw [runLen, dif_pos h, if_pos hg] at hk
      match k with
      | 0 => simpa using hg
      | k + 1 =>
          have := ih k (by omega)
          simpa [Nat.add_comm, Nat.add_left_comm] using this
  | case2 x h hg =>
      intro k hk
      rw [runLen, dif_pos h, if_neg hg] at hk
      omega
  | case3 x h =>
      intro k hk
      rw [runLen, dif_neg h] at hk
      omega

theorem runLen_pos (g : Nat → Nat → Bool) (size y x : Nat)
    (h : x < size) (hg : g y x = true) : 1 ≤ runLen g size y x := by
  rw [runLen, dif_pos h, if_pos hg]
  omega

theorem stripAll_spec (g : Nat → Nat → Bool) (row x width : Nat) :
    stripAll g row x width = true ↔ ∀ k < width, g row (x + k) = true := by
  rw [stripAll, List.all_eq_true]
  constructor
  · intro hall k hk
    exact hall k (List.mem_range.mpr hk)
  · intro hall k hk
    exact hall k (List.mem_range.mp hk)

theorem heightLen_strip (g : Nat → Nat → Bool) (size x width : Nat) :
    ∀ row, ∀ d < heightLen g size x width row,
      row + d < size ∧ stripAll g (row + d) x width = true := by
  intro row₀
  induction row₀ using heightLen.induct g size x width with
  | case1 row h hs ih =>
      intro d hd
      rw [heightLen, dif_pos h, if_pos hs] at hd
      match d with
      | 0 => exact ⟨by omega, by simpa using hs⟩
      | d + 1 =>
          have := ih d (by omega)
          constructor
          · omega
          · have h2 := this.2
            rwa [show row + 1 + d = row + (d + 1) by omega] at h2
  | case2 row h hs =>
      intro d hd
      rw [heightLen, dif_pos h, if_neg hs] at hd
      omega
  | case3 row h =>
      intro d hd
      rw [heightLen, dif_neg h] at hd
      omega

theorem rectAt_cells (g : Nat → Nat → Bool) (size i : Nat)
    (hi : i < size * size) (hg : g (i / size) (i % size) = true) :
    ∀ yy xx, inRect (rectAt g size i) yy xx →
      g yy xx = true ∧ yy < size ∧ xx < size := by
  intro yy xx hin
  obtain ⟨h1, h2, h3, h4⟩ := hin
  simp only [rectAt] at h1 h2 h3 h4
  have hs : 0 < size := by
    rcases Nat.eq_zero_or_pos size with h | h
    · subst h; simp at hi
    · exact h
  have hxlt : i % size < size := Nat.mod_lt _ hs
  have hylt : i / size < size := Nat.div_lt_iff_lt_mul hs |>.mpr hi
  have hwle : runLen g size (i / size) (i % size) ≤ size - i % size :=
    runLen_le g size (i / size) (i % size)
  have hxx : xx < size := by omega
  rcases Nat.lt_or_ge yy (i / size + 1) with hrow | hrow
  · -- first row of the rectangle: covered by the width growth
    have hyy : yy = i / size := by omega
    have hrl := runLen_ink g size (i / size) (i % size) (xx - i % size) (by omega)
    rw [show i % size + (xx - i % size) = xx by omega] at hrl
    exact ⟨by rw [hyy]; exact hrl, by omega, hxx⟩
  · -- later row: covered by the strip checks of the height growth
    have hd := heightLen_strip g size (i % size)
      (runLen g size (i / size) (i % size)) (i / size + 1)
      (yy - (i / size + 1)) (by omega)
    rw [show i / size + 1 + (yy - (i / size + 1)) = yy by omega] at hd
    have hcell := (stripAll_spec g yy (i % size) _).mp hd.2 (xx - i % size) (by omega)
    rw [show i % size + (xx - i % size) = xx by omega] at hcell
    exact ⟨hcell, hd.1, hxx⟩

theorem meshFrom_sound (size : Nat) :
    ∀ i g, ∀ r ∈ meshFrom size g i, ∀ yy xx, inRect r yy xx →
      g yy xx = true ∧ yy < size ∧ xx < size := by
  intro i₀ g₀
  induction g₀, i₀ using meshFrom.induct size with
  | case1 g i h hg ih =>
      intro r hr yy xx hin
      rw [meshFrom, dif_pos h, if_pos hg] at hr
      rcases List.mem_cons.mp hr with rfl | hr
      · exact rectAt_cells g size i h hg yy xx hin
      · have := ih r hr yy xx hin
        refine ⟨?_, this.2.1, this.2.2⟩
        have h1 := this.1
        rw [clearRect] at h1
        by_cases hc : inRect (rectAt g size i) yy xx
        · rw [if_pos hc] at h1; cases h1
        · rwa [if_neg hc] at h1
  | case2 g i h hg ih =>
      intro r hr yy xx hin
      rw [meshFrom, dif_pos h, if_neg hg] at hr
      exact ih r hr yy xx hin
  | case3 g i h =>
      intro r hr
      rw [meshFrom, dif_neg h] at hr
      simp at hr

theorem meshFrom_disjoint (size : Nat) :
    ∀ i g, (meshFrom size g i).Pairwise
      (fun r₁ r₂ => ∀ yy xx, inRect r₁ yy xx → ¬ inRect r₂ yy xx) := by
  intro i₀ g₀
  induction g₀, i₀ using meshFrom.induct size with
  | case1 g i h hg ih =>
      rw [meshFrom, dif_pos h, if_pos hg]
      refine List.Pairwise.cons ?_ ih
      intro r hr yy xx hin hin2
      have := (meshFrom_sound size (i + 1) (clearRect g (rectAt g size i)) r hr
        yy xx hin2).1
      rw [clearRect, if_pos hin] at this
      cases this
  | case2 g i h hg ih =>
      rw [meshFrom, dif_pos h, if_neg hg]
      exact ih
  | case3 g i h =>
      rw [meshFrom, dif_neg h]
      exact List.Pairwise.nil

theorem rasterIdx_div_mod (size yy xx : Nat) (hx : xx < size) :
    (yy * size + xx) / size = yy ∧ (yy * size + xx) % size = xx := by
  have hs : 0 < size := by omega
  constructor
  · rw [Nat.mul_comm yy size, Nat.mul_add_div hs, Nat.div_eq_of_lt hx]
    omega
  · rw [Nat.mul_comm yy size, Nat.mul_add_mod, Nat.mod_eq_of_lt hx]

theorem meshFrom_cover (size : Nat) :
    ∀ i g, ∀ yy xx, yy < size → xx < size → g yy xx = true →
      i ≤ yy * size + xx → ∃ r ∈ meshFrom size g i, inRect r yy xx := by
  intro i₀ g₀
  induction g₀, i₀ using meshFrom.induct size with
  | case1 g i h hg ih =>
      intro yy xx hy hx hon hle
      rw [meshFrom, dif_pos h, if_pos hg]
      by_cases hin : inRect (rectAt g size i) yy xx
      · exact ⟨rectAt g size i, List.mem_cons_self _ _, hin⟩
      · have hne : i ≠ yy * size + xx := by
          intro hE
          obtain ⟨hdiv, hmod⟩ := rasterIdx_div_mod size yy xx hx
          apply hin
          have hs : 0 < size := by omega
          refine ⟨?_, ?_, ?_, ?_⟩ <;>
            simp only [rectAt, hE, hdiv, hmod]
          · omega
          · omega
          · omega
          · have hpos := runLen_pos g size yy xx hx hon
            omega
        have hcl : clearRect g (rectAt g size i) yy xx = true := by
          rw [clearRect, if_neg hin]; exact hon
        obtain ⟨r, hr, hrin⟩ := ih yy xx hy hx hcl (by omega)
        exact ⟨r, List.mem_cons_of_mem _ hr, hrin⟩
  | case2 g i h hg ih =>
      intro yy xx hy hx hon hle
      rw [meshFrom, dif_pos h, if_neg hg]
      have hne : i ≠ yy * size + xx := by
        intro hE
        obtain ⟨hdiv, hmod⟩ := rasterIdx_div_mod size yy xx hx
        rw [hE, hdiv, hmod, hon] at hg
        exact hg rfl
      exact ih yy xx hy hx hon (by omega)
  | case3 g i h =>
      intro yy xx hy hx hon hle
      exfalso
      have hlt : yy * size + xx < size * size := by
        calc yy * size + xx < yy * size + size := by omega
        _ = (yy + 1) * size := by ring
        _ ≤ size * size := Nat.mul_le_mul_right _ (by omega)
      omega

/-- Claim C1: greedy meshing of an ink grid is an exact disjoint cover —
every ink cell lies in an emitted rectangle, every cell of every emitted
rectangle was ink in the original grid (and in bounds), and emitted
rectangles are pairwise disjoint. -/
theorem greedyMesher_exact_cover (size : Nat) (g : Nat → Nat → Bool) :
    (∀ yy xx, yy < size → xx < size → g yy xx = true →
        ∃ r ∈ greedyMesh size g, inRect r yy xx) ∧
    (∀ r ∈ greedyMesh size g, ∀ yy xx, inRect r yy xx →
        g yy xx = true ∧ yy < size ∧ xx < size) ∧
    (greedyMesh size g).Pairwise
        (fun r₁ r₂ => ∀ yy xx, inRect r₁ yy xx → ¬ inRect r₂ yy xx) :=
  ⟨fun yy xx hy hx hon =>
      meshFrom_cover size 0 g yy xx hy hx hon (Nat.zero_le _),
   fun r hr => meshFrom_sound size 0 g r hr,
   meshFrom_disjoint size 0 g⟩

/-- Witness for `greedyMesher_exact_cover`: the all-ink 2×2 grid has its
cell `(1, 0)` covered by an emitted rectangle. -/
theorem greedyMesher_exact_cover_witness :
    ∃ r ∈ greedyMesh 2 (fun _ _ => true), inRect r 1 0 :=
  (greedyMesher_exact_cover 2 (fun _ _ => true)).1 1 0 (by decide) (by decide)
    (by decide)

/-! ## Contour tracer (part_000 `findContours` / `traceBoundary`)

Moore-neighbour tracing: at each cell, scan the 8 neighbours clockwise
starting two positions counter-clockwise of the arrival direction
(`startDir = (dir + 6) % 8`) and move to the first ink neighbour.  The
`do … while (x !== startX || y !== startY)` loop has no other exit besides
"no ink neighbour" (isolated start), so the embedding takes fuel and
returns `none` when the fuel runs out. -/

/-- Table `dx = [0, 1, 1, 1, 0, -1, -1, -1]` (clockwise from north). -/
def mooreDx : Nat → Int
  | 0 => 0 | 1 => 1 | 2 => 1 | 3 => 1 | 4 => 0 | 5 => -1 | 6 => -1 | _ => -1

/-- Table `dy = [-1, -1, 0, 1, 1, 1, 0, -1]` (clockwise from north). -/
def mooreDy : Nat → Int
  | 0 => -1 | 1 => -1 | 2 => 0 | 3 => 1 | 4 => 1 | 5 => 1 | 6 => 0 | _ => -1

/-- The neighbour-search loop of `traceBoundary`: try
`d = (startDir + i) % 8` for `i = 0, …, 7` and return the first in-bounds
ink neighbour together with its direction. -/
def findInkNeighbor (g : Nat → Nat → Bool) (w h x y dir : Nat) :
    Option (Nat × Nat × Nat) :=
  (List.range 8).findSome? fun i =>
    let d := ((dir + 6) % 8 + i) % 8
    let nx : Int := (x : Int) + mooreDx d
    let ny : Int := (y : Int) + mooreDy d
    if 0 ≤ nx ∧ nx < (w : Int) ∧ 0 ≤ ny ∧ ny < (h : Int) then
      if g ny.toNat nx.toNat then some (nx.toNat, ny.toNat, d) else none
    else none

/-- The body of the `do … while` walk of `traceBoundary`: push the current
cell, mark it visited, move to the first ink neighbour; stop successfully
when there is none (isolated pixel) or when the move returns to the start
cell.  `none` = fuel exhausted (the source loop would still be running). -/
def traceBoundaryGo (g : Nat → Nat → Bool) (w h startX startY : Nat) :
    (fuel : Nat) → (x y dir : Nat) → (Nat → Bool) → List (Nat × Nat) →
    Option (List (Nat × Nat) × (Nat → Bool))
  | 0, _, _, _, _, _ => none
  | fuel + 1, x, y, dir, visited, contour =>
    let contour' := contour ++ [(x, y)]
    let visited' : Nat → Bool := fun j => if j = y * w + x then true else visited j
    match findInkNeighbor g w h x y dir with
    | none => some (contour', visited')
    | some (nx, ny, nd) =>
        if nx = startX ∧ ny = startY then some (contour', visited')
        else traceBoundaryGo g w h startX startY fuel nx ny nd visited' contour'

/-- Embeds `traceBoundary(startX, startY, w, h, grid, visited)` with fuel;
the walk starts at the seed with direction 0 (up). -/
def traceBoundary (fuel : Nat) (g : Nat → Nat → Bool) (w h startX startY : Nat)
    (visited : Nat → Bool) : Option (List (Nat × Nat) × (Nat → Bool)) :=
  traceBoundaryGo g w h startX startY fuel startX startY 0 visited []

/-- The raster scan of `findContours`, iterating over the cell indices
`0, …, h·w - 1` in raster order (`y` outer, `x` inner, `i = y*w + x`):
seed a trace at every ink cell not yet visited; keep the traced contour
when `contour.length > 5`. -/
def findContoursLoop (fuel : Nat) (g : Nat → Nat → Bool) (w h : Nat) :
    List Nat → (Nat → Bool) → Option (List (List (Nat × Nat)))
  | [], _ => some []
  | i :: is, visited =>
      if g (i / w) (i % w) = true ∧ visited ((i / w) * w + i % w) = false then
        match traceBoundary fuel g w h (i % w) (i / w) visited with
        | none => none
        | some (contour, visited') =>
            match findContoursLoop fuel g w h is visited' with
            | none => none
            | some rest =>
                some (if 5 < contour.length then contour :: rest else rest)
      else findContoursLoop fuel g w h is visited

/-- Embeds `findContours(width, height, data, threshold)` after binarization,
starting with a clear visited array. -/
def findContours (fuel w h : Nat) (g : Nat → Nat → Bool) :
    Option (List (List (Nat × Nat))) :=
  findContoursLoop fuel g w h (List.range (h * w)) (fun _ => false)

/-- The binarization step at the top of `findContours`:
`grid[i] = brightness < threshold ? 1 : 0` with `i = y * width + x`. -/
def contourGrid (w : Nat) (data : Nat → Nat) (threshold : ℚ) :
    Nat → Nat → Bool :=
  fun y x =>
    isInk (data ((y * w + x) * 4)) (data ((y * w + x) * 4 + 1))
      (data ((y * w + x) * 4 + 2)) threshold

/-- 6×6 grid with ink exactly at `(x,y) ∈ {(4,2),(3,2),(2,3),(3,4),(4,3)}`
(the argument order of the grid function is row `y` first). -/
def gC5 : Nat → Nat → Bool := fun y x =>
  (y == 2 && (x == 3 || x == 4)) || (y == 3 && (x == 2 || x == 4)) ||
    (y == 4 && x == 3)

theorem traceBoundaryGo_step (g : Nat → Nat → Bool)
    (w h sX sY fuel x y dir : Nat) (v : Nat → Bool) (c : List (Nat × Nat))
    (nx ny nd : Nat)
    (hn : findInkNeighbor g w h x y dir = some (nx, ny, nd))
    (hne : ¬(nx = sX ∧ ny = sY)) :
    traceBoundaryGo g w h sX sY (fuel + 1) x y dir v c =
      traceBoundaryGo g w h sX sY fuel nx ny nd
        (fun j => if j = y * w + x then true else v j) (c ++ [(x, y)]) := by
  rw [traceBoundaryGo]
  simp only [hn]
  rw [if_neg hne]

theorem gC5_cycle_go_none :
    ∀ fuel, ∀ s ∈ ([(3, 2, 6), (2, 3, 5), (3, 4, 3), (4, 3, 1), (3, 2, 7)] :
        List (Nat × Nat × Nat)),
      ∀ (v : Nat → Bool) (c : List (Nat × Nat)),
        traceBoundaryGo gC5 6 6 4 2 fuel s.1 s.2.1 s.2.2 v c = none := by
  intro fuel
  induction fuel with
  | zero => intro s _ v c; rfl
  | succ fuel ih =>
      intro s hs v c
      fin_cases hs
      · rw [traceBoundaryGo_step gC5 6 6 4 2 fuel 3 2 6 v c 2 3 5 (by decide)
          (by decide)]
        exact ih (2, 3, 5) (by simp) _ _
      · rw [traceBoundaryGo_step gC5 6 6 4 2 fuel 2 3 5 v c 3 4 3 (by decide)
          (by decide)]
        exact ih (3, 4, 3) (by simp) _ _
      · rw [traceBoundaryGo_step gC5 6 6 4 2 fuel 3 4 3 v c 4 3 1 (by decide)
          (by decide)]
        exact ih (4, 3, 1) (by simp) _ _
      · rw [traceBoundaryGo_step gC5 6 6 4 2 fuel 4 3 1 v c 3 2 7 (by decide)
          (by decide)]
        exact ih (3, 2, 7) (by simp) _ _
      · rw [traceBoundaryGo_step gC5 6 6 4 2 fuel 3 2 7 v c 2 3 5 (by decide)
          (by decide)]
        exact ih (2, 3, 5) (by simp) _ _

/-- Claim C5 is violated by the code: on the 6×6 grid `gC5`, the boundary
walk seeded at the in-bounds ink cell `(4, 2)` never terminates — whatever
fuel the embedded `do … while` loop is given, it is exhausted, because the
walk enters the 4-cycle `(3,2) → (2,3) → (3,4) → (4,3) → (3,2)` of
position/direction states and never returns to the start cell. -/
theorem traceBoundary_nontermination :
    ∀ fuel (visited : Nat → Bool),
      traceBoundary fuel gC5 6 6 4 2 visited = none := by
  intro fuel v
  rw [traceBoundary]
  cases fuel with
  | zero => rfl
  | succ fuel =>
      rw [traceBoundaryGo_step gC5 6 6 4 2 fuel 4 2 0 v [] 3 2 6 (by decide)
        (by decide)]
      exact gC5_cycle_go_none fuel (3, 2, 6) (by simp) _ _

/-! ### Connectivity notions and a refutation grid for the contour scan -/

/-- Cell `p = (x, y)` is an in-bounds ink cell of the `w × h` grid `g`. -/
def InkCell (g : Nat → Nat → Bool) (w h : Nat) (p : Nat × Nat) : Prop :=
  p.1 < w ∧ p.2 < h ∧ g p.2 p.1 = true

instance (g : Nat → Nat → Bool) (w h : Nat) (p : Nat × Nat) :
    Decidable (InkCell g w h p) := by
  unfold InkCell; infer_instance

/-- Two distinct ink cells within Chebyshev distance 1 (8-connectivity). -/
def Adj8 (g : Nat → Nat → Bool) (w h : Nat) (p q : Nat × Nat) : Prop :=
  InkCell g w h p ∧ InkCell g w h q ∧ p ≠ q ∧
    p.1 ≤ q.1 + 1 ∧ q.1 ≤ p.1 + 1 ∧ p.2 ≤ q.2 + 1 ∧ q.2 ≤ p.2 + 1

instance (g : Nat → Nat → Bool) (w h : Nat) (p q : Nat × Nat) :
    Decidable (Adj8 g w h p q) := by
  unfold Adj8; infer_instance

/-- The ink of `g` forms a single 8-connected region: any two ink cells are
joined by a chain of 8-adjacent ink cells. -/
def SingleRegion8 (g : Nat → Nat → Bool) (w h : Nat) : Prop :=
  ∀ p q, InkCell g w h p → InkCell g w h q →
    Relation.ReflTransGen (Adj8 g w h) p q

/-- All cells of a `w × h` grid. -/
def gridCells (w h : Nat) : List (Nat × Nat) :=
  (List.range w).flatMap fun x => (List.range h).map fun y => (x, y)

/-- One breadth-first expansion: adjoin every ink cell adjacent to the
current set. -/
def expandStep (g : Nat → Nat → Bool) (w h : Nat)
    (cur : List (Nat × Nat)) : List (Nat × Nat) :=
  cur ++ (gridCells w h).filter fun q =>
    decide (InkCell g w h q) && !(cur.contains q) &&
      cur.any fun p => decide (Adj8 g w h p q)

/-- The `n`-fold breadth-first closure from `start`. -/
def reachN (g : Nat → Nat → Bool) (w h : Nat) (start : Nat × Nat) :
    Nat → List (Nat × Nat)
  | 0 => [start]
  | n + 1 => expandStep g w h (reachN g w h start n)

theorem reachN_sound (g : Nat → Nat → Bool) (w h : Nat) (start : Nat × Nat) :
    ∀ n, ∀ q ∈ reachN g w h start n,
      Relation.ReflTransGen (Adj8 g w h) start q := by
  intro n
  induction n with
  | zero =>
      intro q hq
      rcases List.mem_singleton.mp hq with rfl
      exact Relation.ReflTransGen.refl
  | succ n ih =>
      intro q hq
      rw [reachN, expandStep] at hq
      rcases List.mem_append.mp hq with hq | hq
      · exact ih q hq
      · obtain ⟨hmem, hcond⟩ := List.mem_filter.mp hq
        simp only [Bool.and_eq_true, List.any_eq_true, decide_eq_true_eq] at hcond
        obtain ⟨_, p, hp, hadj⟩ := hcond
        exact Relation.ReflTransGen.tail (ih p hp) hadj

theorem mem_gridCells (w h : Nat) (p : Nat × Nat)
    (h1 : p.1 < w) (h2 : p.2 < h) : p ∈ gridCells w h := by
  rw [gridCells, List.mem_flatMap]
  refine ⟨p.1, List.mem_range.mpr h1, ?_⟩
  rw [List.mem_map]
  exact ⟨p.2, List.mem_range.mpr h2, rfl⟩

/-- 5×7 grid: the 3×5 ink block `1 ≤ x ≤ 3, 1 ≤ y ≤ 5` with the two hole
cells `(2,3)` and `(2,4)` removed — a single 8-connected ink region
enclosing background. -/
def gC3 : Nat → Nat → Bool := fun y x =>
  decide (1 ≤ x ∧ x ≤ 3 ∧ 1 ≤ y ∧ y ≤ 5) && !(x == 2 && (y == 3 || y == 4))

theorem gC3_single_region : SingleRegion8 gC3 5 7 := by
  have hsym : Symmetric (Adj8 gC3 5 7) := by
    intro p q hpq
    obtain ⟨h1, h2, h3, h4, h5, h6, h7⟩ := hpq
    exact ⟨h2, h1, Ne.symm h3, h5, h4, h7, h6⟩
  have hcov : ∀ p, InkCell gC3 5 7 p → p ∈ reachN gC3 5 7 (1, 1) 13 := by
    intro p hp
    have hall : ∀ q ∈ gridCells 5 7, decide (InkCell gC3 5 7 q) = true →
        q ∈ reachN gC3 5 7 (1, 1) 13 := by decide
    exact hall p (mem_gridCells 5 7 p hp.1 hp.2.1) (decide_eq_true hp)
  intro p q hp hq
  exact Relation.ReflTransGen.trans
    (Relation.ReflTransGen.symmetric hsym (reachN_sound gC3 5 7 (1, 1) 13 p (hcov p hp)))
    (reachN_sound gC3 5 7 (1, 1) 13 q (hcov q hq))

theorem findInkNeighbor_ink (g : Nat → Nat → Bool) (w h x y dir nx ny nd : Nat)
    (hn : findInkNeighbor g w h x y dir = some (nx, ny, nd)) :
    nx < w ∧ ny < h ∧ g ny nx = true := by
  obtain ⟨i, _, hf⟩ := List.exists_of_findSome?_eq_some hn
  simp only at hf
  by_cases hb : (0 ≤ (x : Int) + mooreDx (((dir + 6) % 8 + i) % 8) ∧
      (x : Int) + mooreDx (((dir + 6) % 8 + i) % 8) < (w : Int) ∧
      0 ≤ (y : Int) + mooreDy (((dir + 6) % 8 + i) % 8) ∧
      (y : Int) + mooreDy (((dir + 6) % 8 + i) % 8) < (h : Int))
  · rw [if_pos hb] at hf
    by_cases hg : g ((y : Int) + mooreDy (((dir + 6) % 8 + i) % 8)).toNat
        ((x : Int) + mooreDx (((dir + 6) % 8 + i) % 8)).toNat = true
    · rw [if_pos hg] at hf
      obtain ⟨h1, h2, h3, h4⟩ := hb
      injection hf with hf1
      injection hf1 with hfa hfbc
      injection hfbc with hfb hfc
      subst hfa; subst hfb
      refine ⟨?_, ?_, hg⟩ <;> omega
    · rw [if_neg hg] at hf; cases hf
  · rw [if_neg hb] at hf; cases hf

theorem traceBoundaryGo_points_ink (g : Nat → Nat → Bool) (w h sX sY : Nat) :
    ∀ fuel x y dir (v : Nat → Bool) (c : List (Nat × Nat)) out,
      traceBoundaryGo g w h sX sY fuel x y dir v c = some out →
      InkCell g w h (x, y) →
      (∀ p ∈ c, InkCell g w h p) →
      ∀ p ∈ out.1, InkCell g w h p := by
  intro fuel
  induction fuel with
  | zero => intro x y dir v c out hout; cases hout
  | succ fuel ih =>
      intro x y dir v c out hout hxy hc
      rw [traceBoundaryGo] at hout
      have hacc : ∀ p ∈ c ++ [(x, y)], InkCell g w h p := by
        intro p hp
        rcases List.mem_append.mp hp with hp | hp
        · exact hc p hp
        · rcases List.mem_singleton.mp hp with rfl
          exact hxy
      rcases hfind : findInkNeighbor g w h x y dir with _ | ⟨nx, ny, nd⟩
      · rw [hfind] at hout
        simp only at hout
        injection hout with hout
        subst hout
        exact hacc
      · rw [hfind] at hout
        simp only at hout
        by_cases hstop : nx = sX ∧ ny = sY
        · rw [if_pos hstop] at hout
          injection hout with hout
          subst hout
          exact hacc
        · rw [if_neg hstop] at hout
          have hink := findInkNeighbor_ink g w h x y dir nx ny nd hfind
          exact ih nx ny nd _ _ out hout ⟨hink.1, hink.2.1, hink.2.2⟩ hacc


theorem findContoursLoop_points_ink (fuel : Nat) (g : Nat → Nat → Bool)
    (w h : Nat) :
    ∀ l (visited : Nat → Bool) cs, (∀ i ∈ l, i < h * w) →
      findContoursLoop fuel g w h l visited = some cs →
      ∀ c ∈ cs, ∀ p ∈ c, InkCell g w h p := by
  intro l
  induction l with
  | nil =>
      intro visited cs _ hcs
      injection hcs with hcs
      subst hcs
      intro c hc
      cases hc
  | cons i is ih =>
      intro visited cs hbound hcs
      rw [findContoursLoop] at hcs
      by_cases hseed : g (i / w) (i % w) = true ∧ visited ((i / w) * w + i % w) = false
      · rw [if_pos hseed] at hcs
        rcases htr : traceBoundary fuel g w h (i % w) (i / w) visited with _ | ⟨contour, visited'⟩
        · rw [htr] at hcs; cases hcs
        · rw [htr] at hcs
          simp only at hcs
          rcases hrest : findContoursLoop fuel g w h is visited' with _ | rest
          · rw [hrest] at hcs; cases hcs
          · rw [hrest] at hcs
            simp only at hcs
            injection hcs with hcs
            subst hcs
            have hi : i < h * w := hbound i (List.mem_cons_self _ _)
            have hw : 0 < w := by
              rcases Nat.eq_zero_or_pos w with hz | hpos
              · subst hz; simp at hi
              · exact hpos
            have hstart : InkCell g w h (i % w, i / w) :=
              ⟨Nat.mod_lt _ hw, (Nat.div_lt_iff_lt_mul hw).mpr (by omega), hseed.1⟩
            intro c hc
            have hc' : c = contour ∨ c ∈ rest := by
              by_cases hlen : 5 < contour.length
              · rw [if_pos hlen] at hc
                rcases List.mem_cons.mp hc with rfl | hc
                · exact Or.inl rfl
                · exact Or.inr hc
              · rw [if_neg hlen] at hc
                exact Or.inr hc
            rcases hc' with rfl | hc'
            · exact traceBoundaryGo_points_ink g w h (i % w) (i / w) fuel (i % w)
                (i / w) 0 visited [] (c, visited') htr hstart (by simp)
            · exact ih visited' rest (fun j hj => hbound j (List.mem_cons_of_mem _ hj))
                hrest c hc'
      · rw [if_neg hseed] at hcs
        exact ih visited cs (fun j hj => hbound j (List.mem_cons_of_mem _ hj)) hcs

/-- Counterexample to claim C3: the ink of `gC3` is one single 8-connected
region, yet the contour scan emits TWO surviving rings for it (lengths 12
and 7 — the second is the walk around the enclosed hole, seeded at the ink
cell `(2,2)` which the outer trace never visited), refuting "at most one
Ring per 8-connected ink region". -/
theorem findContours_two_rings_one_region :
    SingleRegion8 gC3 5 7 ∧
    (findContours 100 5 7 gC3).map (fun cs => cs.map List.length) =
      some [12, 7] :=
  ⟨gC3_single_region, by decide⟩

/-- Claim C3, amended: every point of every ring emitted by `findContours`
is an in-bounds ink cell of the grid (in particular enclosed background is
never part of a ring, since only ink cells seed or continue traces); but
because only the cells actually walked are marked visited, an ink cell off
the first walk can seed a further trace, so a single 8-connected ink region
may yield several surviving rings: on `gC3` — one region — the scan emits
exactly two rings, of 12 and 7 points. -/
theorem findContours_rings_are_ink_not_unique :
    (∀ fuel w h (g : Nat → Nat → Bool) cs c p,
        findContours fuel w h g = some cs → c ∈ cs → p ∈ c →
          InkCell g w h p) ∧
    (SingleRegion8 gC3 5 7 ∧
      (findContours 100 5 7 gC3).map (fun cs => cs.map List.length) =
        some [12, 7]) := by
  constructor
  · intro fuel w h g cs c p hcs hc hp
    exact findContoursLoop_points_ink fuel g w h (List.range (h * w))
      (fun _ => false) cs (fun i hi => List.mem_range.mp hi) hcs c hc p hp
  · exact ⟨gC3_single_region, by decide⟩

/-- Witness for `findContours_rings_are_ink_not_unique`: the point `(3, 5)`
of the first ring the scan emits on `gC3` is an ink cell. -/
theorem findContours_rings_are_ink_not_unique_witness :
    InkCell gC3 5 7 (3, 5) :=
  findContours_rings_are_ink_not_unique.1 100 5 7 gC3
    [[(1, 1), (2, 1), (3, 1), (3, 2), (3, 3), (3, 4), (3, 5), (2, 5), (1, 5),
      (1, 4), (1, 3), (1, 2)],
     [(2, 2), (1, 2), (1, 3), (1, 4), (2, 5), (3, 4), (3, 3)]]
    [(1, 1), (2, 1), (3, 1), (3, 2), (3, 3), (3, 4), (3, 5), (2, 5), (1, 5),
      (1, 4), (1, 3), (1, 2)]
    (3, 5) (by decide) (by decide) (by decide)

/-! ## Polyline simplifier (part_000 `simplifyContour`, iterative RDP)

Geometry points carry rational coordinates (`p.x`, `p.y`).  The source
compares `d = |A·px+B·py+C| / sqrt(A²+B²)` (or the Euclidean fallback
`sqrt(dx²+dy²)` when the chord is degenerate) against the running `dmax`
and against `epsilon`; all quantities are non-negative, so the embedding
compares the squared values, which gives identical branches for ε ≥ 0.
The degeneracy test `distDenom > 0.000001` becomes `A²+B² > (10⁻⁶)²`. -/

/-- A 2-D point `{x, y}`. -/
structure Pt where
  x : ℚ
  y : ℚ
deriving DecidableEq, Repr

instance : Inhabited Pt := ⟨⟨0, 0⟩⟩

/-- Squared deviation of `p` from the chord `(a, b)`: the square of the
perpendicular distance `|A·px+B·py+C|/√(A²+B²)` via the line equation
`A = b.y - a.y`, `B = a.x - b.x`, `C = b.x·a.y - b.y·a.x`, or the squared
Euclidean distance to `a` when the chord is degenerate. -/
def chordDevSq (a b p : Pt) : ℚ :=
  if (1 / 1000000 : ℚ) * (1 / 1000000) <
      (b.y - a.y) * (b.y - a.y) + (a.x - b.x) * (a.x - b.x) then
    ((b.y - a.y) * p.x + (a.x - b.x) * p.y + (b.x * a.y - b.y * a.x)) *
        ((b.y - a.y) * p.x + (a.x - b.x) * p.y + (b.x * a.y - b.y * a.x)) /
      ((b.y - a.y) * (b.y - a.y) + (a.x - b.x) * (a.x - b.x))
  else
    (p.x - a.x) * (p.x - a.x) + (p.y - a.y) * (p.y - a.y)

/-- The `for (i = startIndex + 1; i < endIndex; i++)` maximum search:
`n` is the number of remaining iterations (`endIndex - i`), `i` the current
index, `(idx, dmax)` the running maximum (`d > dmax` updates both). -/
def maxDevLoop (f : Nat → ℚ) : Nat → Nat → Nat → ℚ → Nat × ℚ
  | 0, _, idx, dmax => (idx, dmax)
  | n + 1, i, idx, dmax =>
      if dmax < f i then maxDevLoop f n (i + 1) i (f i)
      else maxDevLoop f n (i + 1) idx dmax

/-- Computes `(index, dmax)` for the sub-range `[startIndex, endIndex]`: scan the
intermediate indices starting from `index = startIndex`, `dmax = 0`. -/
def maxDevV (points : List Pt) (startIndex endIndex : Nat) : Nat × ℚ :=
  maxDevLoop
    (fun i => chordDevSq (points.getD startIndex default)
      (points.getD endIndex default) (points.getD i default))
    (endIndex - (startIndex + 1)) (startIndex + 1) startIndex 0

theorem maxDevLoop_cases (f : Nat → ℚ) :
    ∀ n i idx dmax,
      ((maxDevLoop f n i idx dmax).1 = idx ∧
        (maxDevLoop f n i idx dmax).2 = dmax) ∨
      (i ≤ (maxDevLoop f n i idx dmax).1 ∧
        (maxDevLoop f n i idx dmax).1 < i + n) := by
  intro n
  induction n with
  | zero => intro i idx dmax; exact Or.inl ⟨rfl, rfl⟩
  | succ n ih =>
      intro i idx dmax
      rw [maxDevLoop]
      by_cases hlt : dmax < f i
      · rw [if_pos hlt]
        rcases ih (i + 1) i (f i) with ⟨h1, _⟩ | ⟨h1, h2⟩
        · exact Or.inr ⟨by omega, by omega⟩
        · exact Or.inr ⟨by omega, by omega⟩
      · rw [if_neg hlt]
        rcases ih (i + 1) idx dmax with ⟨h1, h2⟩ | ⟨h1, h2⟩
        · exact Or.inl ⟨h1, h2⟩
        · exact Or.inr ⟨by omega, by omega⟩

theorem maxDevLoop_ub (f : Nat → ℚ) :
    ∀ n i idx dmax,
      dmax ≤ (maxDevLoop f n i idx dmax).2 ∧
      ∀ k, i ≤ k → k < i + n → f k ≤ (maxDevLoop f n i idx dmax).2 := by
  intro n
  induction n with
  | zero =>
      intro i idx dmax
      exact ⟨le_refl _, fun k h1 h2 => by omega⟩
  | succ n ih =>
      intro i idx dmax
      rw [maxDevLoop]
      by_cases hlt : dmax < f i
      · rw [if_pos hlt]
        obtain ⟨hmono, hub⟩ := ih (i + 1) i (f i)
        refine ⟨le_of_lt (lt_of_lt_of_le hlt hmono), ?_⟩
        intro k hk1 hk2
        rcases Nat.eq_or_lt_of_le hk1 with rfl | hk1
        · exact hmono
        · exact hub k hk1 (by omega)
      · rw [if_neg hlt]
        obtain ⟨hmono, hub⟩ := ih (i + 1) idx dmax
        refine ⟨hmono, ?_⟩
        intro k hk1 hk2
        rcases Nat.eq_or_lt_of_le hk1 with rfl | hk1
        · exact le_trans (le_of_not_lt hlt) hmono
        · exact hub k hk1 (by omega)

theorem chordDevSq_nonneg (a b p : Pt) : 0 ≤ chordDevSq a b p := by
  rw [chordDevSq]
  split
  · apply div_nonneg (mul_self_nonneg _)
    have h1 := mul_self_nonneg (b.y - a.y)
    have h2 := mul_self_nonneg (a.x - b.x)
    linarith
  · have h1 := mul_self_nonneg (p.x - a.x)
    have h2 := mul_self_nonneg (p.y - a.y)
    linarith

/-- When the range is split, the split index lies strictly inside it. -/
theorem maxDevV_mem (points : List Pt) (s e : Nat) (eps : ℚ)
    (h : eps * eps < (maxDevV points s e).2) :
    s < (maxDevV points s e).1 ∧ (maxDevV points s e).1 < e := by
  rcases maxDevLoop_cases
      (fun i => chordDevSq (points.getD s default) (points.getD e default)
        (points.getD i default))
      (e - (s + 1)) (s + 1) s 0 with ⟨h1, h2⟩ | ⟨h1, h2⟩
  · rw [maxDevV] at h
    rw [h2] at h
    have := mul_self_nonneg eps
    linarith
  · rw [maxDevV] at h ⊢
    constructor
    · omega
    · -- if the range has no interior the loop never ran, so dmax stayed 0
      rcases Nat.lt_or_ge (s + 1) e with hse | hse
      · omega
      · omega

/-- The explicit-stack loop of `simplifyContour`: pop a sub-range
`[startIndex, endIndex]`; if the maximum deviation exceeds ε, mark the
deviating index kept and push both halves (`[start,index]` on top of
`[index,end]` is popped first, matching the push order of the source);
otherwise drop the whole interior.  Termination: each split shrinks the
total interior size, each plain pop shrinks the stack. -/
def rdpLoop (points : List Pt) (epsilon : ℚ) :
    List (Nat × Nat) → (Nat → Bool) → (Nat → Bool)
  | [], keep => keep
  | (startIndex, endIndex) :: stack, keep =>
      if h : epsilon * epsilon < (maxDevV points startIndex endIndex).2 then
        rdpLoop points epsilon
          (((maxDevV points startIndex endIndex).1, endIndex) ::
            (startIndex, (maxDevV points startIndex endIndex).1) :: stack)
          (fun j => if j = (maxDevV points startIndex endIndex).1 then true
            else keep j)
      else rdpLoop points epsilon stack keep
termination_by stack _ =>
  (stack.map fun p => 2 * (p.2 - p.1 - 1)).sum + stack.length
decreasing_by
  · obtain ⟨hs, he⟩ := maxDevV_mem points startIndex endIndex epsilon h
    simp only [List.map_cons, List.sum_cons, List.length_cons]
    omega
  · simp only [List.map_cons, List.sum_cons, List.length_cons]
    omega

/-- Embeds `simplifyContour(points, epsilon)`: inputs of at most two points are
returned unchanged; otherwise run the stack loop from `[(0, len-1)]` with
first and last point pre-kept, then collect the kept points in order. -/
def simplifyContour (points : List Pt) (epsilon : ℚ) : List Pt :=
  if points.length ≤ 2 then points
  else
    ((points.enum.filter fun ip =>
        rdpLoop points epsilon [(0, points.length - 1)]
          (fun i => i == 0 || i == points.length - 1) ip.1).map Prod.snd)

theorem rdpLoop_mono (points : List Pt) (epsilon : ℚ) :
    ∀ stack keep j, keep j = true →
      rdpLoop points epsilon stack keep j = true := by
  intro stack₀ keep₀
  induction stack₀, keep₀ using rdpLoop.induct points epsilon with
  | case1 keep =>
      intro j hj
      rw [rdpLoop]
      exact hj
  | case2 startIndex endIndex stack keep h ih =>
      intro j hj
      rw [rdpLoop, dif_pos h]
      apply ih
      simp only
      by_cases hje : j = (maxDevV points startIndex endIndex).1
      · rw [dif_pos hje]
      · rw [dif_neg hje]; exact hj
  | case3 startIndex endIndex stack keep h ih =>
      intro j hj
      rw [rdpLoop, dif_neg h]
      exact ih j hj

theorem mem_of_kept (points : List Pt) (keepF : Nat → Bool) (j : Nat)
    (hj : j < points.length) (hk : keepF j = true) :
    points.getD j default ∈ (points.enum.filter fun ip => keepF ip.1).map Prod.snd := by
  rw [List.mem_map]
  refine ⟨(j, points.getD j default), ?_, rfl⟩
  rw [List.mem_filter]
  constructor
  · rw [List.mk_mem_enum_iff_getElem?, List.getElem?_eq_getElem hj,
      List.getD_eq_getElem points default hj]
  · exact hk

theorem pair_mem_of_kept (points : List Pt) (keepF : Nat → Bool) (j : Nat)
    (hj : j < points.length) (hk : keepF j = true) :
    (j, points.getD j default) ∈ points.enum.filter fun ip => keepF ip.1 := by
  rw [List.mem_filter]
  constructor
  · rw [List.mk_mem_enum_iff_getElem?, List.getElem?_eq_getElem hj,
      List.getD_eq_getElem points default hj]
  · exact hk

theorem two_mem_le_length {α : Type} {l : List α} {a b : α}
    (ha : a ∈ l) (hb : b ∈ l) (hne : a ≠ b) : 2 ≤ l.length := by
  cases l with
  | nil => cases ha
  | cons x t =>
      cases t with
      | nil =>
          rw [List.mem_singleton] at ha hb
          exact absurd (ha.trans hb.symm) hne
      | cons y t2 => simp only [List.length_cons]; omega

/-- Claim C7: for an input of at least two points and ε ≥ 0,
`simplifyContour` returns a subsequence of the input (original order, so
its length is at most the input length), of length at least 2, containing
the first and the last input point. -/
theorem simplifyContour_structure (points : List Pt) (epsilon : ℚ)
    (hlen : 2 ≤ points.length) (heps : 0 ≤ epsilon) :
    List.Sublist (simplifyContour points epsilon) points ∧
    (simplifyContour points epsilon).length ≤ points.length ∧
    2 ≤ (simplifyContour points epsilon).length ∧
    (∀ p, points.head? = some p → p ∈ simplifyContour points epsilon) ∧
    (∀ p, points.getLast? = some p → p ∈ simplifyContour points epsilon) := by
  by_cases hsmall : points.length ≤ 2
  · rw [simplifyContour, if_pos hsmall]
    refine ⟨List.Sublist.refl _, le_refl _, hlen, ?_, ?_⟩
    · intro p hp
      exact List.mem_of_mem_head? hp
    · intro p hp
      exact List.mem_of_getLast?_eq_some hp
  · push_neg at hsmall
    rw [simplifyContour, if_neg (by omega)]
    have h0 : rdpLoop points epsilon [(0, points.length - 1)]
        (fun i => i == 0 || i == points.length - 1) 0 = true :=
      rdpLoop_mono points epsilon _ _ 0 (by simp)
    have hl : rdpLoop points epsilon [(0, points.length - 1)]
        (fun i => i == 0 || i == points.length - 1) (points.length - 1) = true :=
      rdpLoop_mono points epsilon _ _ (points.length - 1) (by simp)
    have hsub : (((points.enum.filter fun ip =>
          rdpLoop points epsilon [(0, points.length - 1)]
            (fun i => i == 0 || i == points.length - 1) ip.1).map
          Prod.snd)).Sublist (points.enum.map Prod.snd) :=
      List.Sublist.map _ (List.filter_sublist _)
    rw [List.enum_map_snd points] at hsub
    have hpair0 := pair_mem_of_kept points _ 0 (by omega) h0
    have hpairl := pair_mem_of_kept points _ (points.length - 1) (by omega) hl
    have hfl : 2 ≤ ((points.enum.filter fun ip =>
        rdpLoop points epsilon [(0, points.length - 1)]
          (fun i => i == 0 || i == points.length - 1) ip.1)).length := by
      refine two_mem_le_length hpair0 hpairl ?_
      intro hEq
      have := congrArg Prod.fst hEq
      simp only at this
      omega
    refine ⟨hsub, hsub.length_le, by rw [List.length_map]; exact hfl, ?_, ?_⟩
    · intro p hp
      rw [List.head?_eq_getElem? points,
        List.getElem?_eq_getElem (by omega : 0 < points.length)] at hp
      injection hp with hp
      have := mem_of_kept points _ 0 (by omega) h0
      rwa [List.getD_eq_getElem points default (by omega), hp] at this
    · intro p hp
      rw [List.getLast?_eq_getElem? points,
        List.getElem?_eq_getElem (by omega : points.length - 1 < points.length)] at hp
      injection hp with hp
      have := mem_of_kept points _ (points.length - 1) (by omega) hl
      rwa [List.getD_eq_getElem points default (by omega), hp] at this

/-- Witness for `simplifyContour_structure`: the 4-point unit square at
ε = 1/2; the first corner is in the output. -/
theorem simplifyContour_structure_witness :
    ⟨0, 0⟩ ∈ simplifyContour [⟨0, 0⟩, ⟨1, 0⟩, ⟨1, 1⟩, ⟨0, 1⟩] (1 / 2) :=
  (simplifyContour_structure [⟨0, 0⟩, ⟨1, 0⟩, ⟨1, 1⟩, ⟨0, 1⟩] (1 / 2)
    (by decide) (by norm_num)).2.2.2.1 ⟨0, 0⟩ rfl

/-- Counterexample to claim C8: on three collinear points, ε = 0 drops the
middle point (its deviation from the chord is exactly 0, and the test
`dmax > epsilon` is strict), so `simplifyContour · 0` is not the identity. -/
theorem simplifyContour_eps_zero_not_noop :
    simplifyContour [⟨0, 0⟩, ⟨1, 0⟩, ⟨2, 0⟩] (0 : ℚ) = [⟨0, 0⟩, ⟨2, 0⟩] ∧
    simplifyContour [⟨0, 0⟩, ⟨1, 0⟩, ⟨2, 0⟩] (0 : ℚ) ≠
      [⟨0, 0⟩, ⟨1, 0⟩, ⟨2, 0⟩] := by
  have hloop : rdpLoop [⟨0, 0⟩, ⟨1, 0⟩, ⟨2, 0⟩] 0 [(0, 2)]
      (fun i => i == 0 || i == 2) = fun i => i == 0 || i == 2 := by
    rw [rdpLoop, dif_neg (by norm_num [maxDevV, maxDevLoop, chordDevSq]), rdpLoop]
  have hres : simplifyContour [⟨0, 0⟩, ⟨1, 0⟩, ⟨2, 0⟩] (0 : ℚ) =
      [⟨0, 0⟩, ⟨2, 0⟩] := by
    rw [simplifyContour, if_neg (by decide)]
    simp only [List.length_cons, List.length_nil]
    rw [show (0 + 1 + 1 + 1 : Nat) - 1 = 2 from rfl, hloop]
    decide
  exact ⟨hres, by rw [hres]; decide⟩

theorem rdpLoop_dropped (points : List Pt) (eps : ℚ) (N : Nat) :
    ∀ stack keep,
      (∀ p ∈ stack, keep p.1 = true ∧ keep p.2 = true) →
      (∀ p ∈ stack, p.2 ≤ N) →
      ∀ i, (∃ p ∈ stack, p.1 < i ∧ i < p.2) →
        rdpLoop points eps stack keep i = false →
        ∃ s e, s < i ∧ i < e ∧ e ≤ N ∧
          rdpLoop points eps stack keep s = true ∧
          rdpLoop points eps stack keep e = true ∧
          chordDevSq (points.getD s default) (points.getD e default)
            (points.getD i default) ≤ eps * eps := by
  intro stack₀ keep₀
  induction stack₀, keep₀ using rdpLoop.induct points eps with
  | case1 keep =>
      intro _ _ i hex _
      obtain ⟨p, hp, _⟩ := hex
      cases hp
  | case2 startIndex endIndex stack keep h ih =>
      intro hks hbnd i hex hfalse
      obtain ⟨hm1, hm2⟩ := maxDevV_mem points startIndex endIndex eps h
      rw [rdpLoop, dif_pos h] at hfalse ⊢
      have hkeep0 := hks (startIndex, endIndex) (List.mem_cons_self _ _)
      have hkeepNew : ∀ j, keep j = true →
          (fun j => if h : j = (maxDevV points startIndex endIndex).1 then true
            else keep j) j = true := by
        intro j hj
        show (if _h : j = (maxDevV points startIndex endIndex).1 then true
          else keep j) = true
        split
        · rfl
        · exact hj
      have hkeepM : (fun j => if h : j = (maxDevV points startIndex endIndex).1
          then true else keep j) (maxDevV points startIndex endIndex).1 = true :=
        dif_pos rfl
      have hks' : ∀ p ∈ ((maxDevV points startIndex endIndex).1, endIndex) ::
          (startIndex, (maxDevV points startIndex endIndex).1) :: stack,
          (fun j => if h : j = (maxDevV points startIndex endIndex).1 then true
            else keep j) p.1 = true ∧
          (fun j => if h : j = (maxDevV points startIndex endIndex).1 then true
            else keep j) p.2 = true := by
        intro p hp
        rcases List.mem_cons.mp hp with rfl | hp
        · exact ⟨hkeepM, hkeepNew _ hkeep0.2⟩
        rcases List.mem_cons.mp hp with rfl | hp
        · exact ⟨hkeepNew _ hkeep0.1, hkeepM⟩
        · have := hks p (List.mem_cons_of_mem _ hp)
          exact ⟨hkeepNew _ this.1, hkeepNew _ this.2⟩
      have hbnd' : ∀ p ∈ ((maxDevV points startIndex endIndex).1, endIndex) ::
          (startIndex, (maxDevV points startIndex endIndex).1) :: stack,
          p.2 ≤ N := by
        intro p hp
        have hbe := hbnd (startIndex, endIndex) (List.mem_cons_self _ _)
        rcases List.mem_cons.mp hp with rfl | hp
        · exact hbe
        rcases List.mem_cons.mp hp with rfl | hp
        · simp only at hbe ⊢
          omega
        · exact hbnd p (List.mem_cons_of_mem _ hp)
      have hex' : ∃ p ∈ ((maxDevV points startIndex endIndex).1, endIndex) ::
          (startIndex, (maxDevV points startIndex endIndex).1) :: stack,
          p.1 < i ∧ i < p.2 := by
        obtain ⟨p, hp, hp1, hp2⟩ := hex
        rcases List.mem_cons.mp hp with rfl | hp
        · simp only at hp1 hp2
          have hne : i ≠ (maxDevV points startIndex endIndex).1 := by
            intro hE
            have : rdpLoop points eps
                (((maxDevV points startIndex endIndex).1, endIndex) ::
                  (startIndex, (maxDevV points startIndex endIndex).1) :: stack)
                (fun j => if h : j = (maxDevV points startIndex endIndex).1
                  then true else keep j) i = true := by
              apply rdpLoop_mono
              exact dif_pos hE
            exact Bool.noConfusion (this.symm.trans hfalse)
          rcases Nat.lt_or_ge i (maxDevV points startIndex endIndex).1 with hlt | hge
          · exact ⟨(startIndex, (maxDevV points startIndex endIndex).1),
              List.mem_cons_of_mem _ (List.mem_cons_self _ _), hp1, hlt⟩
          · exact ⟨((maxDevV points startIndex endIndex).1, endIndex),
              List.mem_cons_self _ _, by omega, hp2⟩
        · exact ⟨p, List.mem_cons_of_mem _ (List.mem_cons_of_mem _ hp), hp1, hp2⟩
      exact ih hks' hbnd' i hex' hfalse
  | case3 startIndex endIndex stack keep h ih =>
      intro hks hbnd i hex hfalse
      rw [rdpLoop, dif_neg h] at hfalse ⊢
      obtain ⟨p, hp, hp1, hp2⟩ := hex
      rcases List.mem_cons.mp hp with rfl | hp
      · simp only at hp1 hp2
        have hkeep0 := hks (startIndex, endIndex) (List.mem_cons_self _ _)
        refine ⟨startIndex, endIndex, hp1, hp2,
          hbnd (startIndex, endIndex) (List.mem_cons_self _ _), ?_, ?_, ?_⟩
        · exact rdpLoop_mono points eps stack keep startIndex hkeep0.1
        · exact rdpLoop_mono points eps stack keep endIndex hkeep0.2
        · have hub := (maxDevLoop_ub
            (fun k => chordDevSq (points.getD startIndex default)
              (points.getD endIndex default) (points.getD k default))
            (endIndex - (startIndex + 1)) (startIndex + 1) startIndex 0).2
            i (by omega) (by omega)
          have hle : (maxDevV points startIndex endIndex).2 ≤ eps * eps :=
            le_of_not_lt h
          rw [maxDevV] at hle
          exact le_trans hub hle
      · exact ih (fun q hq => hks q (List.mem_cons_of_mem _ hq))
          (fun q hq => hbnd q (List.mem_cons_of_mem _ hq)) i ⟨p, hp, hp1, hp2⟩
          hfalse

/-- Claim C8, amended: at ε = 0 the simplifier is not the identity in
general — a point is dropped exactly when its (squared) deviation from the
chord of two retained points around it is exactly 0, i.e. only exactly
collinear points can disappear; every other point is returned. -/
theorem simplifyContour_eps_zero_dropped (points : List Pt) :
    ∀ i, i < points.length →
      points.getD i default ∈ simplifyContour points 0 ∨
      ∃ s e, s < i ∧ i < e ∧ e < points.length ∧
        points.getD s default ∈ simplifyContour points 0 ∧
        points.getD e default ∈ simplifyContour points 0 ∧
        chordDevSq (points.getD s default) (points.getD e default)
          (points.getD i default) = 0 := by
  intro i hi
  by_cases hsmall : points.length ≤ 2
  · left
    rw [simplifyContour, if_pos hsmall, List.getD_eq_getElem points default hi]
    exact List.getElem_mem _
  · push_neg at hsmall
    by_cases hk : rdpLoop points 0 [(0, points.length - 1)]
        (fun j => j == 0 || j == points.length - 1) i = true
    · left
      rw [simplifyContour, if_neg (by omega)]
      exact mem_of_kept points _ i hi hk
    · right
      have hfalse : rdpLoop points 0 [(0, points.length - 1)]
          (fun j => j == 0 || j == points.length - 1) i = false :=
        Bool.not_eq_true _ ▸ (Bool.eq_false_iff.mpr (by simpa using hk))
      have hi0 : i ≠ 0 := by
        intro hE
        exact hk (rdpLoop_mono points 0 _ _ i (by simp [hE]))
      have hil : i ≠ points.length - 1 := by
        intro hE
        exact hk (rdpLoop_mono points 0 _ _ i (by simp [hE]))
      obtain ⟨s, e, hs, he, heN, hks, hke, hdev⟩ :=
        rdpLoop_dropped points 0 (points.length - 1) [(0, points.length - 1)]
          (fun j => j == 0 || j == points.length - 1)
          (by intro p hp; rcases List.mem_singleton.mp hp with rfl; simp)
          (by intro p hp; rcases List.mem_singleton.mp hp with rfl; simp)
          i ⟨(0, points.length - 1), List.mem_singleton_self _,
            by omega, by omega⟩ hfalse
      have hdev0 : chordDevSq (points.getD s default) (points.getD e default)
          (points.getD i default) = 0 :=
        le_antisymm (by simpa using hdev) (chordDevSq_nonneg _ _ _)
      refine ⟨s, e, hs, he, by omega, ?_, ?_, hdev0⟩
      · rw [simplifyContour, if_neg (by omega)]
        exact mem_of_kept points _ s (by omega) hks
      · rw [simplifyContour, if_neg (by omega)]
        exact mem_of_kept points _ e (by omega) hke

/-- Witness for `simplifyContour_eps_zero_dropped`: the middle point of
three collinear points, at index 1. -/
theorem simplifyContour_eps_zero_dropped_witness :
    (([⟨0, 0⟩, ⟨1, 0⟩, ⟨2, 0⟩] : List Pt).getD 1 default ∈
        simplifyContour [⟨0, 0⟩, ⟨1, 0⟩, ⟨2, 0⟩] 0) ∨
      ∃ s e, s < 1 ∧ 1 < e ∧ e < ([⟨0, 0⟩, ⟨1, 0⟩, ⟨2, 0⟩] : List Pt).length ∧
        ([⟨0, 0⟩, ⟨1, 0⟩, ⟨2, 0⟩] : List Pt).getD s default ∈
          simplifyContour [⟨0, 0⟩, ⟨1, 0⟩, ⟨2, 0⟩] 0 ∧
        ([⟨0, 0⟩, ⟨1, 0⟩, ⟨2, 0⟩] : List Pt).getD e default ∈
          simplifyContour [⟨0, 0⟩, ⟨1, 0⟩, ⟨2, 0⟩] 0 ∧
        chordDevSq (([⟨0, 0⟩, ⟨1, 0⟩, ⟨2, 0⟩] : List Pt).getD s default)
          (([⟨0, 0⟩, ⟨1, 0⟩, ⟨2, 0⟩] : List Pt).getD e default)
          (([⟨0, 0⟩, ⟨1, 0⟩, ⟨2, 0⟩] : List Pt).getD 1 default) = 0 :=
  simplifyContour_eps_zero_dropped [⟨0, 0⟩, ⟨1, 0⟩, ⟨2, 0⟩] 1 (by decide)

/-! ## Ring hierarchy classifier (part_000 `identifyHoles` / `isPointInPolygon`)

`identifyHoles` maps every contour to `{points, area: |shoelace/2|,
isHole: false, children: []}`, sorts by area descending (JS `Array.sort`
is stable; any stable sort gives the same list, and the concrete inputs
used below have pairwise distinct areas), then for each ring scans ALL
already-processed larger rings with a ray-cast containment test of its
first vertex; the loop has no `break` and both branches of the inner `if`
assign `parent = polys[j]`, so the LAST match in sort order wins.  Children
are modelled through parent indices into the processed prefix. -/

/-- Sum `Σ (c[i].x·c[j].y − c[i].y·c[j].x)` over the list of consecutive
vertex pairs `(c[i], c[(i+1) % len])`. -/
def shoelaceSum : List (Pt × Pt) → ℚ
  | [] => 0
  | (a, b) :: rest => (a.x * b.y - a.y * b.x) + shoelaceSum rest

/-- The signed shoelace area `Σ(...)/2` of a contour (wrapping pairs). -/
def polyArea (c : List Pt) : ℚ :=
  (match c with
    | [] => 0
    | p :: rest => shoelaceSum (c.zip (rest ++ [p]))) / 2

/-- The edge loop of `isPointInPolygon`, folding `inside` over the edge
list `(polygon[i], polygon[j])` with `j` the predecessor index. -/
def rayCastEdges (p : Pt) : List (Pt × Pt) → Bool → Bool
  | [], inside => inside
  | (pi, pj) :: rest, inside =>
      rayCastEdges p rest
        (if (decide (pi.y > p.y) != decide (pj.y > p.y)) &&
            decide (p.x < (pj.x - pi.x) * (p.y - pi.y) / (pj.y - pi.y) + pi.x)
          then !inside else inside)

/-- Ray-casting point-in-polygon test
(`for (i = 0, j = len - 1; i < len; j = i++)`). -/
def isPointInPolygon (p : Pt) (polygon : List Pt) : Bool :=
  match polygon.getLast? with
  | none => false
  | some lst => rayCastEdges p (polygon.zip (lst :: polygon.dropLast)) false

/-- A classified ring: its points, absolute area, hole flag, and the index
(into the processed prefix, in sorted order) of its parent, if any. -/
structure PolyEntry where
  points : List Pt
  area : ℚ
  isHole : Bool
  parent : Option Nat
deriving Repr

instance : Inhabited PolyEntry := ⟨⟨[], 0, false, none⟩⟩

/-- The `for (j = 0; j < i; j++)` containment scan: no `break`, and both
branches of the source's inner `if` assign `parent = polys[j]`, so each
match overwrites the previous one — the LAST containing ring wins. -/
def findParentAux (p0 : Pt) : List PolyEntry → Nat → Option Nat → Option Nat
  | [], _, parent => parent
  | q :: qs, j, parent =>
      findParentAux p0 qs (j + 1)
        (if isPointInPolygon p0 q.points then some j else parent)

def findParent (processed : List PolyEntry) (p0 : Pt) : Option Nat :=
  findParentAux p0 processed 0 none

/-- Insert into a descending-by-area list, before the first entry of
smaller-or-equal area (stable: earlier elements stay first among ties). -/
def sortInsert (x : List Pt × ℚ) : List (List Pt × ℚ) → List (List Pt × ℚ)
  | [] => [x]
  | y :: ys => if y.2 ≤ x.2 then x :: y :: ys else y :: sortInsert x ys

/-- Stable sort by `|area|` descending (`.sort((a, b) => b.area - a.area)`). -/
def sortByAreaDesc : List (List Pt × ℚ) → List (List Pt × ℚ)
  | [] => []
  | x :: xs => sortInsert x (sortByAreaDesc xs)

/-- Process the sorted rings in order: pick the parent (last containing
processed ring), flip its `isHole`, and append. -/
def identifyHolesAux : List PolyEntry → List (List Pt × ℚ) → List PolyEntry
  | processed, [] => processed
  | processed, (pts, ar) :: rest =>
      identifyHolesAux
        (processed ++ [⟨pts, ar,
          match findParent processed (pts.headD default) with
          | some j => !(processed.getD j default).isHole
          | none => false,
          findParent processed (pts.headD default)⟩])
        rest

/-- Embeds `identifyHoles(contours)`: area computation, sort, containment scan. -/
def identifyHoles (contours : List (List Pt)) : List PolyEntry :=
  identifyHolesAux [] (sortByAreaDesc (contours.map fun c => (c, |polyArea c|)))

/-- The root rings (no parent) paired with the point lists of their direct
children, both in processing order — the `hierarchy` consumed by the
mesh/outline assembler. -/
def rootsOf (entries : List PolyEntry) : List (List Pt × List (List Pt)) :=
  (List.range entries.length).filterMap fun j =>
    if (entries.getD j default).parent = none then
      some ((entries.getD j default).points,
        (List.range entries.length).filterMap fun k =>
          if (entries.getD k default).parent = some j
          then some ((entries.getD k default).points) else none)
    else none

/-- Outermost 10×10 square ring (area 100). -/
def sqA : List Pt := [⟨0, 0⟩, ⟨10, 0⟩, ⟨10, 10⟩, ⟨0, 10⟩]

/-- Middle 8×8 square ring nested inside `sqA` (area 64). -/
def sqB : List Pt := [⟨1, 1⟩, ⟨9, 1⟩, ⟨9, 9⟩, ⟨1, 9⟩]

/-- Innermost 3×3 square ring nested inside `sqB` (area 9). -/
def sqC : List Pt := [⟨3, 3⟩, ⟨6, 3⟩, ⟨6, 6⟩, ⟨3, 6⟩]

/-- Claim C4 is violated by the code: on three nested squares (areas
100 > 64 > 9), the containment loop has no `break` and overwrites `parent`
on every match, so the innermost ring gets parent index 1 (`sqB`, the LAST
containing ring in sort order) although index 0 (`sqA`, the first and
largest) also contains its first vertex — the code picks the last match,
not the first as the spec and the code's own comment state. -/
theorem identifyHoles_picks_last_containing :
    (identifyHoles [sqA, sqB, sqC]).map (fun e => e.parent) =
      [none, some 0, some 1] ∧
    (identifyHoles [sqA, sqB, sqC]).map (fun e => e.isHole) =
      [false, true, false] ∧
    isPointInPolygon (sqC.headD default) sqA = true ∧
    isPointInPolygon (sqC.headD default) sqB = true := by
  norm_num [identifyHoles, identifyHolesAux, sortByAreaDesc, sortInsert,
    polyArea, shoelaceSum, findParent, findParentAux, isPointInPolygon,
    rayCastEdges, sqA, sqB, sqC, List.zip, List.zipWith, List.dropLast]

/-! ## Mesh/outline assemblers

part_000: `hierarchy.forEach(poly => …)` flattens the root ring followed by
its children (recording each child's starting vertex index), calls the
external `earcut` capability, and ALWAYS pushes a mesh record — there is no
vertex-count guard.  part_001 (d3 variant): per polygon, rings are
flattened with hole start indices and the mesh record is pushed only under
the guard `flatVertices.length >= 6` (≥ 3 vertices).  The external
triangulator is a function parameter. -/

/-- Flatten a root ring and its children into one coordinate buffer with
hole start indices (part_000: `flatData` / `holeIndices` / `indexOffset`). -/
def flattenWithHoles (outer : List Pt) (children : List (List Pt)) :
    List ℚ × List Nat :=
  (children.foldl
    (fun (st : (List ℚ × List Nat) × Nat) child =>
      ((st.1.1 ++ child.flatMap fun p => [p.x, p.y], st.1.2 ++ [st.2]),
        st.2 + child.length))
    ((outer.flatMap fun p => [p.x, p.y], []), outer.length)).1

/-- part_000 assembler: one mesh record per root — unconditionally — and
one outline per ring (root first, then its holes) in traversal order. -/
def assembleMoore (earcutFn : List ℚ → List Nat → List Nat) :
    List (List Pt × List (List Pt)) →
    List (List ℚ × List Nat) × List (List Pt × Bool)
  | [] => ([], [])
  | poly :: rest =>
      ((( (flattenWithHoles poly.1 poly.2).1,
          earcutFn (flattenWithHoles poly.1 poly.2).1
            (flattenWithHoles poly.1 poly.2).2) ::
        (assembleMoore earcutFn rest).1),
       ((poly.1, false) :: (poly.2.map fun c => (c, true)) ++
        (assembleMoore earcutFn rest).2))

/-- part_001 ring flattening: `vertexCount` vertices seen so far,
`ringIndex` the position of the next ring; rings after the first
contribute a hole start index. -/
def flattenRingsD3 : List (List Pt) → Nat → Nat → List ℚ × List Nat
  | [], _, _ => ([], [])
  | ring :: rings, vertexCount, ringIndex =>
      ((ring.flatMap fun p => [p.x, p.y]) ++
        (flattenRingsD3 rings (vertexCount + ring.length) (ringIndex + 1)).1,
       (if 0 < ringIndex then [vertexCount] else []) ++
        (flattenRingsD3 rings (vertexCount + ring.length) (ringIndex + 1)).2)

/-- part_001 assembler over the polygons of the d3 contour output: outlines
for every ring (`isHole = ringIndex > 0`), and a mesh record only when
`flatVertices.length >= 6`. -/
def assembleD3 (earcutFn : List ℚ → List Nat → List Nat) :
    List (List (List Pt)) →
    List (List ℚ × List Nat) × List (List Pt × Bool)
  | [] => ([], [])
  | polygon :: rest =>
      ((if 6 ≤ (flattenRingsD3 polygon 0 0).1.length then
          [((flattenRingsD3 polygon 0 0).1,
            earcutFn (flattenRingsD3 polygon 0 0).1
              (flattenRingsD3 polygon 0 0).2)]
        else []) ++ (assembleD3 earcutFn rest).1,
       (polygon.enum.map fun ir => (ir.2, decide (0 < ir.1))) ++
        (assembleD3 earcutFn rest).2)

/-- Counterexample to claim C6: in the Moore-contour variant (part_000)
the `earcut` call and the mesh push are unconditional — a root ring with
only 2 vertices (4 flat coordinates < 6) still emits a MeshRecord. -/
theorem assembleMoore_emits_degenerate :
    (flattenWithHoles [⟨0, 0⟩, ⟨1, 1⟩] []).1.length < 6 ∧
    (assembleMoore (fun _ _ => []) [([⟨0, 0⟩, ⟨1, 1⟩], [])]).1.length = 1 := by
  exact ⟨by decide, by decide⟩

theorem flatMap_coords_length (ring : List Pt) :
    (ring.flatMap fun p => [p.x, p.y]).length = 2 * ring.length := by
  induction ring with
  | nil => rfl
  | cons p rest ih =>
      rw [List.flatMap_cons, List.length_append, ih, List.length_cons]
      simp only [List.length_cons, List.length_nil]
      omega

theorem flattenRingsD3_length (rings : List (List Pt)) :
    ∀ vc ri, (flattenRingsD3 rings vc ri).1.length =
      2 * (rings.map List.length).sum := by
  induction rings with
  | nil => intro vc ri; rfl
  | cons ring rest ih =>
      intro vc ri
      rw [flattenRingsD3]
      simp only [List.length_append, List.map_cons, List.sum_cons,
        flatMap_coords_length, ih]
      omega

/-- Claim C6, amended: in the d3 variant (part_001) exactly the polygons
with at least 3 total vertices produce a MeshRecord (degenerate ones are
skipped silently, siblings still processed, outlines still emitted for
every ring); in the Moore variant (part_000) the mesh push is
unconditional — one MeshRecord per root, degenerate or not.  In neither
variant does a degenerate ring abort processing or fail the request. -/
theorem triangulation_degenerate_skip
    (f : List ℚ → List Nat → List Nat) (polys : List (List (List Pt)))
    (hierarchy : List (List Pt × List (List Pt))) :
    (assembleD3 f polys).1.length =
      (polys.filter fun polygon => 3 ≤ (polygon.map List.length).sum).length ∧
    (assembleD3 f polys).2.length = (polys.map List.length).sum ∧
    (assembleMoore f hierarchy).1.length = hierarchy.length := by
  refine ⟨?_, ?_, ?_⟩
  · induction polys with
    | nil => rfl
    | cons polygon rest ih =>
        rw [assembleD3]
        simp only [List.length_append]
        rw [List.filter_cons]
        by_cases hv : 3 ≤ (polygon.map List.length).sum
        · rw [if_pos (show 6 ≤ (flattenRingsD3 polygon 0 0).1.length by
              rw [flattenRingsD3_length]; omega),
            if_pos (show decide (3 ≤ (polygon.map List.length).sum) = true by
              simpa using hv)]
          simp only [List.length_cons, List.length_nil, ih]
          omega
        · rw [if_neg (show ¬6 ≤ (flattenRingsD3 polygon 0 0).1.length by
              rw [flattenRingsD3_length]; omega),
            if_neg (show ¬decide (3 ≤ (polygon.map List.length).sum) = true by
              simpa using hv)]
          simpa using ih
  · induction polys with
    | nil => rfl
    | cons polygon rest ih =>
        rw [assembleD3]
        simp only [List.length_append, List.length_map, List.enum_length,
          List.map_cons, List.sum_cons, ih]
  · induction hierarchy with
    | nil => rfl
    | cons poly rest ih =>
        rw [assembleMoore]
        simp only [List.length_cons, ih]

/-! ## Threshold-zero behaviour and the transport parameters -/

/-- The binarized grid of the scanline/greedy endpoints:
`isOn` at cell `(x, y)` from the RGBA buffer (`index = (y*size + x) * 4`). -/
def serverGrid (size : Nat) (data : Nat → Nat) (threshold : ℚ) :
    Nat → Nat → Bool :=
  fun y x =>
    isInk (data ((y * size + x) * 4)) (data ((y * size + x) * 4 + 1))
      (data ((y * size + x) * 4 + 2)) threshold

/-- The part_000 `/generate` contour pipeline after rasterization:
trace → simplify with ε = 1.5 → classify holes → assemble meshes/outlines
(`none` = the trace loop would not have terminated). -/
def contourPipeline (fuel w h : Nat) (data : Nat → Nat) (threshold : ℚ)
    (earcutFn : List ℚ → List Nat → List Nat) :
    Option (List (List ℚ × List Nat) × List (List Pt × Bool)) :=
  match findContours fuel w h (contourGrid w data threshold) with
  | none => none
  | some raw =>
      some (assembleMoore earcutFn (rootsOf (identifyHoles
        (raw.map fun c => simplifyContour
          (c.map fun q => ⟨(q.1 : ℚ), (q.2 : ℚ)⟩) (3 / 2)))))

theorem isInk_zero (r g b : Nat) : isInk r g b 0 = false := by
  rw [isInk, decide_eq_false_iff_not, brightness, not_lt]
  positivity

theorem isInkAlpha_zero (r g b a : Nat) : isInkAlpha r g b a 0 = false := by
  have h := isInk_zero r g b
  rw [isInk] at h
  rw [isInkAlpha, h, Bool.and_false]

theorem rowRunsAux_all_off (isOn : Nat → Bool) (hall : ∀ t, isOn t = false)
    (size y : Nat) :
    ∀ x rs, rs = none → rowRunsAux isOn size y x rs = [] := by
  intro x₀ rs₀
  induction x₀, rs₀ using rowRunsAux.induct isOn size y with
  | case1 x h hon ih =>
      intro _
      rw [hall x] at hon
      cases hon
  | case2 x h hoff ih =>
      intro _
      rw [rowRunsAux.eq_def, dif_pos h]
      simp only [hoff]
      exact ih rfl
  | case3 x h s hon ih =>
      intro hE
      cases hE
  | case4 x h s hoff ih =>
      intro hE
      cases hE
  | case5 x h s =>
      intro hE
      cases hE
  | case6 x h =>
      intro _
      rw [rowRunsAux.eq_def, dif_neg h]

theorem meshFrom_all_off (size : Nat) :
    ∀ i (g : Nat → Nat → Bool), (∀ y x, g y x = false) →
      meshFrom size g i = [] := by
  intro i₀ g₀
  induction g₀, i₀ using meshFrom.induct size with
  | case1 g i h hg ih =>
      intro hall
      rw [hall] at hg
      cases hg
  | case2 g i h hg ih =>
      intro hall
      rw [meshFrom, dif_pos h, if_neg hg]
      exact ih hall
  | case3 g i h =>
      intro _
      rw [meshFrom, dif_neg h]

theorem findContoursLoop_all_off (fuel w h : Nat) (g : Nat → Nat → Bool)
    (hall : ∀ y x, g y x = false) :
    ∀ l (visited : Nat → Bool),
      findContoursLoop fuel g w h l visited = some [] := by
  intro l
  induction l with
  | nil => intro visited; rfl
  | cons i is ih =>
      intro visited
      rw [findContoursLoop, if_neg (by simp [hall])]
      exact ih visited

/-- Claim C9: with threshold 0 no pixel is ever classified as ink (mean
luminance is never strictly below 0, whichever binarization rule is used),
so the run extractor, the greedy mesher and the whole contour pipeline all
return empty output. -/
theorem threshold_zero_all_empty (size w h fuel : Nat) (data : Nat → Nat)
    (earcutFn : List ℚ → List Nat → List Nat) :
    (∀ y x, serverGrid size data 0 y x = false) ∧
    (∀ r g b a : Nat, isInkAlpha r g b a 0 = false) ∧
    runExtract (serverGrid size data 0) size = [] ∧
    greedyMesh size (serverGrid size data 0) = [] ∧
    findContours fuel w h (contourGrid w data 0) = some [] ∧
    contourPipeline fuel w h data 0 earcutFn = some ([], []) := by
  have hgrid : ∀ y x, serverGrid size data 0 y x = false := by
    intro y x
    rw [serverGrid]
    exact isInk_zero _ _ _
  have hcgrid : ∀ y x, contourGrid w data 0 y x = false := by
    intro y x
    rw [contourGrid]
    exact isInk_zero _ _ _
  have hfc : findContours fuel w h (contourGrid w data 0) = some [] :=
    findContoursLoop_all_off fuel w h _ hcgrid _ _
  refine ⟨hgrid, isInkAlpha_zero, ?_, ?_, hfc, ?_⟩
  · rw [runExtract]
    apply List.flatMap_eq_nil_iff.mpr
    intro y _
    exact rowRunsAux_all_off (serverGrid size data 0 y) (hgrid y) size y 0
      none rfl
  · exact meshFrom_all_off size 0 _ hgrid
  · rw [contourPipeline, hfc]
    rfl

/-- Counterexample to claim C10: a pipeline threshold of exactly 0 IS
reachable through the HTTP interface — a request parameter parsing to a
negative integer (for example `threshold=-1`) is truthy, skips the `|| 120`
default, and is clamped up to 0 by `Math.max(·, 0)`. -/
theorem parseThreshold_zero_reachable : parseThreshold (some (-1)) = 0 := by
  decide

/-- Claim C10, amended: a threshold parameter that parses to `0`, to `NaN`,
or is absent receives the default 120 (likewise resolution defaults to
128), and the value actually used always lies in `[0, 255]` (resolution in
`[32, 512]`); but threshold 0 is still reachable, via any negative
parameter value. -/
theorem parameter_parsing_clamps (v : Option Int) :
    parseThreshold none = 120 ∧ parseThreshold (some 0) = 120 ∧
    parseResolution none = 128 ∧ parseResolution (some 0) = 128 ∧
    0 ≤ parseThreshold v ∧ parseThreshold v ≤ 255 ∧
    32 ≤ parseResolution v ∧ parseResolution v ≤ 512 ∧
    parseThreshold (some (-1)) = 0 := by
  refine ⟨by decide, by decide, by decide, by decide, ?_, ?_, ?_, ?_,
    by decide⟩
  · rw [parseThreshold.eq_def]
    exact le_min (le_max_right _ _) (by decide)
  · rw [parseThreshold.eq_def]
    exact min_le_right _ _
  · rw [parseResolution.eq_def]
    exact le_min (le_max_right _ _) (by decide)
  · rw [parseResolution.eq_def]
    exact min_le_right _ _
